import Mathlib

/-!
Verification development for the QuantEdge options-strategy engine.

The quant engine proper (backend/core/optimizer.py, black_scholes.py,
probability.py, monte_carlo.py) is listed in the repository README but its
source is not present under src/; those components are modelled here from the
specification and from the formulas reproduced in the README.  The frontend
store, API client and pages are present in source and are embedded directly.
-/

namespace QuantEdge

/-! ## Strategy optimizer (spec 4.6) -/

/-- Modelled from the spec: backend/core/optimizer.py is absent from src/
(only the README architecture listing and the frontend caller are present).
A candidate strategy as produced by the optimizer's scoring stage: expected
value, probability of profit, Sharpe ratio and margin estimate, all computed
per candidate before filtering and ranking. -/
structure RawCandidate where
  ev : ℚ
  pop : ℚ
  sharpe : ℚ
  margin : ℚ
deriving DecidableEq

/-- Modelled from the spec: a scored candidate together with its generation
index (position in the candidate-generation order), the key used for the
final stable tie-break of spec 4.6. -/
structure ScoredStrategy where
  idx : Nat
  ev : ℚ
  pop : ℚ
  sharpe : ℚ
  margin : ℚ
deriving DecidableEq

/-- Modelled from the spec: the ranking order of spec 4.6 — primary key EV
descending, tie-break 1 POP descending, tie-break 2 Sharpe descending,
tie-break 3 generation order (ascending index). -/
def rankLE (a b : ScoredStrategy) : Prop :=
  b.ev < a.ev ∨ (a.ev = b.ev ∧ (b.pop < a.pop ∨ (a.pop = b.pop ∧
    (b.sharpe < a.sharpe ∨ (a.sharpe = b.sharpe ∧ a.idx ≤ b.idx)))))

instance : DecidableRel rankLE := fun a b => by
  unfold rankLE
  infer_instance

instance : IsTotal ScoredStrategy rankLE := by
  constructor
  intro a b
  unfold rankLE
  rcases lt_trichotomy b.ev a.ev with h | h | h
  · exact Or.inl (Or.inl h)
  · rcases lt_trichotomy b.pop a.pop with h2 | h2 | h2
    · exact Or.inl (Or.inr ⟨h.symm, Or.inl h2⟩)
    · rcases lt_trichotomy b.sharpe a.sharpe with h3 | h3 | h3
      · exact Or.inl (Or.inr ⟨h.symm, Or.inr ⟨h2.symm, Or.inl h3⟩⟩)
      · rcases Nat.le_total a.idx b.idx with h4 | h4
        · exact Or.inl (Or.inr ⟨h.symm, Or.inr ⟨h2.symm, Or.inr ⟨h3.symm, h4⟩⟩⟩)
        · exact Or.inr (Or.inr ⟨h, Or.inr ⟨h2, Or.inr ⟨h3, h4⟩⟩⟩)
      · exact Or.inr (Or.inr ⟨h, Or.inr ⟨h2, Or.inl h3⟩⟩)
    · exact Or.inr (Or.inr ⟨h, Or.inl h2⟩)
  · exact Or.inr (Or.inl h)

instance : IsTrans ScoredStrategy rankLE := by
  constructor
  intro a b c hab hbc
  unfold rankLE at hab hbc ⊢
  rcases hab with h1 | ⟨e1, h1⟩
  · rcases hbc with h2 | ⟨e2, h2⟩
    · exact Or.inl (h2.trans h1)
    · exact Or.inl (e2 ▸ h1)
  · rcases hbc with h2 | ⟨e2, h2⟩
    · exact Or.inl (e1 ▸ h2)
    · refine Or.inr ⟨e1.trans e2, ?_⟩
      rcases h1 with h1 | ⟨f1, h1⟩
      · rcases h2 with h2 | ⟨f2, h2⟩
        · exact Or.inl (h2.trans h1)
        · exact Or.inl (f2 ▸ h1)
      · rcases h2 with h2 | ⟨f2, h2⟩
        · exact Or.inl (f1 ▸ h2)
        · refine Or.inr ⟨f1.trans f2, ?_⟩
          rcases h1 with h1 | ⟨g1, h1⟩
          · rcases h2 with h2 | ⟨g2, h2⟩
            · exact Or.inl (h2.trans h1)
            · exact Or.inl (g2 ▸ h1)
          · rcases h2 with h2 | ⟨g2, h2⟩
            · exact Or.inl (g1 ▸ h2)
            · exact Or.inr ⟨g1.trans g2, h1.trans h2⟩

theorem rankLE_antisymm_fields {a b : ScoredStrategy} (h1 : rankLE a b) (h2 : rankLE b a) :
    a.ev = b.ev ∧ a.pop = b.pop ∧ a.sharpe = b.sharpe ∧ a.idx = b.idx := by
  unfold rankLE at h1 h2
  rcases h1 with h1 | ⟨e1, h1⟩
  · rcases h2 with h2 | ⟨e2, h2⟩
    · exact absurd h1 (lt_asymm h2)
    · exact absurd h1 (e2 ▸ lt_irrefl _)
  · rcases h2 with h2 | ⟨e2, h2⟩
    · exact absurd h2 (e1 ▸ lt_irrefl _)
    · refine ⟨e1, ?_⟩
      rcases h1 with h1 | ⟨f1, h1⟩
      · rcases h2 with h2 | ⟨f2, h2⟩
        · exact absurd h1 (lt_asymm h2)
        · exact absurd h1 (f2 ▸ lt_irrefl _)
      · rcases h2 with h2 | ⟨f2, h2⟩
        · exact absurd h2 (f1 ▸ lt_irrefl _)
        · refine ⟨f1, ?_⟩
          rcases h1 with h1 | ⟨g1, h1⟩
          · rcases h2 with h2 | ⟨g2, h2⟩
            · exact absurd h1 (lt_asymm h2)
            · exact absurd h1 (g2 ▸ lt_irrefl _)
          · rcases h2 with h2 | ⟨g2, h2⟩
            · exact absurd h2 (g1 ▸ lt_irrefl _)
            · exact ⟨g1, Nat.le_antisymm h1 h2⟩

/-- Two sorted permutations of a list of candidates with pairwise-distinct
generation indices coincide: the ranking of spec 4.6 is totally
deterministic, including tie-break order. -/
theorem eq_of_perm_of_sorted_nodupIdx :
    ∀ {l₁ l₂ : List ScoredStrategy}, List.Perm l₁ l₂ →
      List.Sorted rankLE l₁ → List.Sorted rankLE l₂ →
      (l₁.map ScoredStrategy.idx).Nodup → l₁ = l₂ := by
  intro l₁
  induction l₁ with
  | nil =>
    intro l₂ hp _ _ _
    exact (List.Perm.nil_eq hp).symm ▸ rfl
  | cons a t₁ ih =>
    intro l₂ hp hs₁ hs₂ hnd
    cases l₂ with
    | nil => exact absurd hp.symm (by simp)
    | cons b t₂ =>
      have hab : a = b := by
        have hbmem : b ∈ a :: t₁ := hp.symm.subset (List.mem_cons_self b t₂)
        have hamem : a ∈ b :: t₂ := hp.subset (List.mem_cons_self a t₁)
        by_contra hne
        have hbt₁ : b ∈ t₁ := by
          rcases List.mem_cons.mp hbmem with h | h
          · exact absurd h.symm hne
          · exact h
        have hat₂ : a ∈ t₂ := by
          rcases List.mem_cons.mp hamem with h | h
          · exact absurd h hne
          · exact h
        have h1 : rankLE a b := List.rel_of_sorted_cons hs₁ b hbt₁
        have h2 : rankLE b a := List.rel_of_sorted_cons hs₂ a hat₂
        have hidx : a.idx = b.idx := (rankLE_antisymm_fields h1 h2).2.2.2
        have : a.idx ∈ t₁.map ScoredStrategy.idx := by
          rw [hidx]
          exact List.mem_map_of_mem ScoredStrategy.idx hbt₁
        rw [List.map_cons] at hnd
        exact (List.nodup_cons.mp hnd).1 this
      subst hab
      have ht : t₁ = t₂ := by
        refine ih hp.cons_inv hs₁.of_cons hs₂.of_cons ?_
        rw [List.map_cons] at hnd
        exact (List.nodup_cons.mp hnd).2
      rw [ht]

/-- Modelled from the spec: attach a generation index to each candidate in
generation order (spec 4.6, tie-break 3 and design note on the candidate
sequence). -/
def indexCands (cands : List RawCandidate) : List ScoredStrategy :=
  cands.enum.map fun p => ⟨p.1, p.2.ev, p.2.pop, p.2.sharpe, p.2.margin⟩

/-- Modelled from the spec: the capital filter of spec 4.6 — discard any
candidate whose total margin exceeds available capital. -/
def capFilter (capital : ℚ) (l : List ScoredStrategy) : List ScoredStrategy :=
  l.filter fun s => s.margin ≤ capital

/-- Reason code carried by a typed empty optimizer result (spec 4.6 and the
error taxonomy of spec 7). -/
inductive ReasonCode
  | noViableStrategy
deriving DecidableEq

/-- Failure of a whole optimizer request, distinct from a typed empty result
(spec 7: market-data-unavailable fails the request). -/
inductive OptimizerFailure
  | marketDataUnavailable
deriving DecidableEq

/-- Result of one optimizer invocation (spec 3): the ranked strategy list, an
optional reason code for a typed empty result, and the candidate count. -/
structure OptimizerResult where
  strategies : List ScoredStrategy
  reason : Option ReasonCode
  nCandidatesEvaluated : Nat
deriving DecidableEq

/-- Modelled from the spec: an option-chain snapshot as handed to the engine
by the ingestion collaborator (spec 6), reduced to the fields the claims
touch. -/
structure ChainSnapshot where
  spot : ℚ
  iv : ℚ
  isMockData : Bool
deriving DecidableEq

/-- Modelled from the spec: one optimizer invocation (spec 4.6) — score the
generated candidates, filter by capital, rank by the deterministic key, and
return the first top_n, attaching the no-viable-strategy reason code when
zero candidates survive the filter. -/
def optimize (capital : ℚ) (topN : Nat) (cands : List RawCandidate) : OptimizerResult :=
  let viable := capFilter capital (indexCands cands)
  let ranked := List.insertionSort rankLE viable
  { strategies := ranked.take topN
    reason := if viable = [] then some ReasonCode.noViableStrategy else none
    nCandidatesEvaluated := cands.length }

/-- Modelled from the spec: the per-request entry point.  The engine proceeds
only when handed a chain snapshot; an absent chain fails the whole request
(spec 7, market-data-unavailable). -/
def runRequest (chain : Option ChainSnapshot) (capital : ℚ) (topN : Nat)
    (gen : ChainSnapshot → List RawCandidate) : Except OptimizerFailure OptimizerResult :=
  match chain with
  | none => .error .marketDataUnavailable
  | some c => .ok (optimize capital topN (gen c))

/-- C1: every strategy in the ranked result set of an optimizer invocation
has total margin at most the supplied capital; the capital filter is never
relaxed. -/
theorem optimizer_capital_filter_invariant (capital : ℚ) (topN : Nat)
    (cands : List RawCandidate) (s : ScoredStrategy)
    (hs : s ∈ (optimize capital topN cands).strategies) :
    s.margin ≤ capital := by
  have h1 : s ∈ List.insertionSort rankLE (capFilter capital (indexCands cands)) :=
    List.mem_of_mem_take hs
  have h2 : s ∈ capFilter capital (indexCands cands) :=
    (List.perm_insertionSort rankLE _).subset h1
  simpa using (List.mem_filter.mp h2).2

theorem optimizer_capital_filter_invariant_witness :
    (⟨0, 1, 1, 1, 5⟩ : ScoredStrategy) ∈ (optimize 10 3 [⟨1, 1, 1, 5⟩]).strategies ∧
      (⟨0, 1, 1, 1, 5⟩ : ScoredStrategy).margin ≤ 10 :=
  ⟨by decide, optimizer_capital_filter_invariant 10 3 [⟨1, 1, 1, 5⟩] _ (by decide)⟩

theorem nodupIdx_capFilter (capital : ℚ) (cands : List RawCandidate) :
    ((capFilter capital (indexCands cands)).map ScoredStrategy.idx).Nodup := by
  have hsub : List.Sublist ((capFilter capital (indexCands cands)).map ScoredStrategy.idx)
      ((indexCands cands).map ScoredStrategy.idx) :=
    (List.filter_sublist _).map ScoredStrategy.idx
  refine hsub.nodup ?_
  have : (indexCands cands).map ScoredStrategy.idx = cands.enum.map Prod.fst := by
    unfold indexCands
    rw [List.map_map]
    rfl
  rw [this]
  exact List.nodup_enum_map_fst cands

/-- C2: the optimizer's ranked result is exactly the first topN of the unique
permutation of the capital-filtered candidates that is sorted by the key "EV
descending, then POP descending, then Sharpe descending, then generation
order"; in particular the ordering (including tie-break order) is uniquely
determined by the inputs, so identical inputs produce the identical ordered
result. -/
theorem optimizer_ranking_deterministic (capital : ℚ) (topN : Nat)
    (cands : List RawCandidate) (l : List ScoredStrategy)
    (hperm : List.Perm l (capFilter capital (indexCands cands)))
    (hsort : List.Sorted rankLE l) :
    (optimize capital topN cands).strategies = l.take topN ∧
      List.Sorted rankLE (optimize capital topN cands).strategies := by
  have hsortEq : List.insertionSort rankLE (capFilter capital (indexCands cands)) = l := by
    refine eq_of_perm_of_sorted_nodupIdx
      ((List.perm_insertionSort rankLE _).trans hperm.symm)
      (List.sorted_insertionSort rankLE _) hsort ?_
    have hp : List.Perm
        ((List.insertionSort rankLE (capFilter capital (indexCands cands))).map
          ScoredStrategy.idx)
        ((capFilter capital (indexCands cands)).map ScoredStrategy.idx) :=
      (List.perm_insertionSort rankLE _).map ScoredStrategy.idx
    exact hp.nodup_iff.mpr (nodupIdx_capFilter capital cands)
  constructor
  · show (List.insertionSort rankLE (capFilter capital (indexCands cands))).take topN
      = l.take topN
    rw [hsortEq]
  · show List.Sorted rankLE
      ((List.insertionSort rankLE (capFilter capital (indexCands cands))).take topN)
    exact (List.sorted_insertionSort rankLE _).sublist (List.take_sublist _ _)

theorem optimizer_ranking_deterministic_witness :
    List.Perm ([⟨1, 2, 1, 1, 5⟩, ⟨0, 1, 1, 1, 5⟩] : List ScoredStrategy)
        (capFilter 10 (indexCands [⟨1, 1, 1, 5⟩, ⟨2, 1, 1, 5⟩])) ∧
      List.Sorted rankLE ([⟨1, 2, 1, 1, 5⟩, ⟨0, 1, 1, 1, 5⟩] : List ScoredStrategy) ∧
      (optimize 10 2 [⟨1, 1, 1, 5⟩, ⟨2, 1, 1, 5⟩]).strategies
        = List.take 2 ([⟨1, 2, 1, 1, 5⟩, ⟨0, 1, 1, 1, 5⟩] : List ScoredStrategy) :=
  ⟨by decide, by decide,
    (optimizer_ranking_deterministic 10 2 [⟨1, 1, 1, 5⟩, ⟨2, 1, 1, 5⟩]
      [⟨1, 2, 1, 1, 5⟩, ⟨0, 1, 1, 1, 5⟩] (by decide) (by decide)).1⟩

/-- C5: when zero candidates survive the capital filter the optimizer returns
a typed, non-error empty result carrying the no-viable-strategy reason code,
distinguishable both from a request failure (the market-data-unavailable
case, which is an error, shown by the second conjunct) and from an empty
list without a reason code. -/
theorem optimizer_no_viable_typed_empty (chain : ChainSnapshot) (capital : ℚ) (topN : Nat)
    (gen : ChainSnapshot → List RawCandidate)
    (hempty : capFilter capital (indexCands (gen chain)) = []) :
    runRequest (some chain) capital topN gen =
        .ok { strategies := []
              reason := some ReasonCode.noViableStrategy
              nCandidatesEvaluated := (gen chain).length } ∧
      runRequest none capital topN gen = .error OptimizerFailure.marketDataUnavailable := by
  constructor
  · simp [runRequest, optimize, hempty]
  · rfl

theorem optimizer_no_viable_typed_empty_witness :
    capFilter 10 (indexCands [⟨1, 1, 1, 100⟩]) = [] ∧
      runRequest (some ⟨100, 20, true⟩) 10 3 (fun _ => [⟨1, 1, 1, 100⟩]) =
        .ok { strategies := []
              reason := some ReasonCode.noViableStrategy
              nCandidatesEvaluated := 1 } :=
  ⟨by decide,
    (optimizer_no_viable_typed_empty ⟨100, 20, true⟩ 10 3 (fun _ => [⟨1, 1, 1, 100⟩])
      (by decide)).1⟩

/-! ## Frontend API client response interceptor (src/unnamed/part_002, axios client) -/

/-- Browser-visible state touched by the API client's response interceptor:
the localStorage key-value pairs and the current location href. -/
structure ClientState where
  storage : List (String × String)
  href : String
deriving DecidableEq

/-- An axios rejection as seen by the response interceptor: the HTTP status
of the response when one exists (a network error has none) and the error
payload, carried unchanged through the interceptor. -/
structure HttpError where
  status : Option Nat
  payload : String
deriving DecidableEq

/-- Embedded from the source (api.interceptors.response rejection handler):
on a 401 response remove the token key from localStorage and redirect to the
login page, then re-reject with the original error; otherwise re-reject with
the original error leaving the state untouched. -/
def onResponseRejected (err : HttpError) (st : ClientState) : ClientState × HttpError :=
  if err.status = some 401 then
    ({ storage := st.storage.filter fun kv => kv.fst ≠ ("qe_token")
       href := ("/login") }, err)
  else
    (st, err)

/-- C9: a response rejected with status 401 makes the interceptor remove the
qe_token key from localStorage and set the location to the login page while
still rejecting with the original error; any other rejection passes through
completely unchanged. -/
theorem interceptor_401_logout (err : HttpError) (st : ClientState) :
    (err.status = some 401 →
      (∀ v, (("qe_token"), v) ∉ (onResponseRejected err st).1.storage) ∧
        (onResponseRejected err st).1.href = ("/login") ∧
        (onResponseRejected err st).2 = err) ∧
      (err.status ≠ some 401 → onResponseRejected err st = (st, err)) := by
  constructor
  · intro h401
    unfold onResponseRejected
    rw [if_pos h401]
    refine ⟨?_, rfl, rfl⟩
    intro v hv
    have := (List.mem_filter.mp hv).2
    simp at this
  · intro hne
    unfold onResponseRejected
    rw [if_neg hne]

theorem interceptor_401_logout_witness :
    ((⟨some 401, ("unauthorized")⟩ : HttpError).status = some 401) ∧
      (∀ v, (("qe_token"), v) ∉
        (onResponseRejected ⟨some 401, ("unauthorized")⟩
          ⟨[(("qe_token"), ("tok"))], ("/home")⟩).1.storage) ∧
      (onResponseRejected ⟨some 401, ("unauthorized")⟩
          ⟨[(("qe_token"), ("tok"))], ("/home")⟩).1.href = ("/login") ∧
      ((⟨some 500, ("server error")⟩ : HttpError).status ≠ some 401) ∧
      onResponseRejected ⟨some 500, ("server error")⟩
          ⟨[(("qe_token"), ("tok"))], ("/home")⟩ =
        (⟨[(("qe_token"), ("tok"))], ("/home")⟩, ⟨some 500, ("server error")⟩) :=
  ⟨rfl,
    ((interceptor_401_logout ⟨some 401, ("unauthorized")⟩
        ⟨[(("qe_token"), ("tok"))], ("/home")⟩).1 rfl).1,
    ((interceptor_401_logout ⟨some 401, ("unauthorized")⟩
        ⟨[(("qe_token"), ("tok"))], ("/home")⟩).1 rfl).2.1,
    by decide,
    (interceptor_401_logout ⟨some 500, ("server error")⟩
        ⟨[(("qe_token"), ("tok"))], ("/home")⟩).2 (by decide)⟩

/-! ## Frontend store: runOptimize (src/frontend/src/pages/OptimizerPage.jsx, store section) -/

/-- Zustand store state relevant to the optimizer flow, embedded from the
store section of the source. -/
structure StoreState where
  optimizerResult : Option OptimizerResult
  selectedStrategy : Nat
  optimizing : Bool
  optimizerError : Option String
deriving DecidableEq

/-- An API rejection as seen by the store: the optional detail field of the
response body (err.response?.data?.detail). -/
structure ApiError where
  detail : Option String
deriving DecidableEq

/-- JavaScript a || b on an optional string: undefined and the empty string
are both falsy, so both fall through to the default. -/
def jsOrElse (v : Option String) (d : String) : String :=
  match v with
  | none => d
  | some s => if s = ("") then d else s

/-- Embedded from the source (store runOptimize): set optimizing and clear
the error, then on success store the result and reset the selection to 0; on
rejection set the error message and stop optimizing, leaving the result and
selection untouched. -/
def runOptimizeStore (s : StoreState) (outcome : Except ApiError OptimizerResult) :
    StoreState :=
  let started := { s with optimizing := true, optimizerError := none }
  match outcome with
  | .ok result =>
      { started with
          optimizerResult := some result
          selectedStrategy := 0
          optimizing := false }
  | .error err =>
      { started with
          optimizerError := some (jsOrElse err.detail ("Optimization failed."))
          optimizing := false }

/-- C10 counterexample: a rejection whose response body carries a present but
empty detail field.  The claim says optimizerError is set to the detail field
whenever it is present, i.e. to the empty string here; the code uses
JavaScript truthiness, so the empty string falls through to the default
message instead. -/
theorem store_error_detail_counterexample :
    (runOptimizeStore ⟨none, 0, false, none⟩ (.error ⟨some ("")⟩)).optimizerError
        = some ("Optimization failed.") ∧
      some ("Optimization failed.") ≠ some ("" : String) := by
  constructor
  · rfl
  · simp

/-- C10 (amended): on a rejected optimizer request the store leaves
optimizerResult and selectedStrategy unchanged, sets optimizing to false,
and sets optimizerError to the response body's detail field when present and
non-empty (JavaScript-truthy) and to the default message otherwise; on
success it stores the new result and resets selectedStrategy to 0, so the
selected index refers to the current result's first strategy. -/
theorem store_runOptimize_transitions (s : StoreState) (e : ApiError) (r : OptimizerResult) :
    ((runOptimizeStore s (.error e)).optimizerResult = s.optimizerResult ∧
      (runOptimizeStore s (.error e)).selectedStrategy = s.selectedStrategy ∧
      (runOptimizeStore s (.error e)).optimizing = false ∧
      (runOptimizeStore s (.error e)).optimizerError =
        some (match e.detail with
          | some d => if d = ("") then ("Optimization failed.") else d
          | none => ("Optimization failed."))) ∧
      ((runOptimizeStore s (.ok r)).optimizerResult = some r ∧
        (runOptimizeStore s (.ok r)).selectedStrategy = 0 ∧
        (runOptimizeStore s (.ok r)).optimizing = false) := by
  refine ⟨⟨rfl, rfl, rfl, ?_⟩, rfl, rfl, rfl⟩
  unfold runOptimizeStore jsOrElse
  rcases e with ⟨d⟩
  cases d with
  | none => rfl
  | some v => rfl

/-! ## Monte Carlo histogram (spec 3 and 4.5) -/

/-- Modelled from the spec: one histogram bin of a MonteCarloResult, with the
fields the frontend consumes (bin_low, count, is_profit in the Monte Carlo
page of SharedPages.jsx) plus the bin's upper edge. -/
structure HistBin where
  bin_low : ℚ
  bin_high : ℚ
  count : Nat
  is_profit : Bool
deriving DecidableEq

/-- Smallest sampled P&L (the sample list is nonempty: a first sample plus
the rest). -/
def sampleMin (x0 : ℚ) (rest : List ℚ) : ℚ := rest.foldl min x0

/-- Largest sampled P&L. -/
def sampleMax (x0 : ℚ) (rest : List ℚ) : ℚ := rest.foldl max x0

/-- Modelled from the spec: width of one bin of a histogram with a fixed bin
count spanning the sample's P&L range (spec 4.5). -/
def binWidth (nBins : Nat) (x0 : ℚ) (rest : List ℚ) : ℚ :=
  (sampleMax x0 rest - sampleMin x0 rest) / (nBins : ℚ)

/-- Bin index a sample falls into: a floor division clamped to the last bin,
so the maximum sample lands in the top bin. -/
def binIndex (lo w : ℚ) (nBins : Nat) (x : ℚ) : Nat :=
  min (nBins - 1) (((x - lo) / w).floor.toNat)

/-- Modelled from the spec: backend/core/monte_carlo.py is absent from src/;
the histogram over a fixed bin count spanning the sampled P&L range, with
each bin tagged profit or loss by the sign of its midpoint (spec 3). -/
def histogram (nBins : Nat) (x0 : ℚ) (rest : List ℚ) : List HistBin :=
  (List.range nBins).map fun (i : Nat) =>
    { bin_low := sampleMin x0 rest + (i : ℚ) * binWidth nBins x0 rest
      bin_high := sampleMin x0 rest + ((i : ℚ) + 1) * binWidth nBins x0 rest
      count := (x0 :: rest).countP fun x =>
        binIndex (sampleMin x0 rest) (binWidth nBins x0 rest) nBins x = i
      is_profit := decide
        (0 < sampleMin x0 rest + (i : ℚ) * binWidth nBins x0 rest
          + binWidth nBins x0 rest / 2) }

theorem binIndex_lt (lo w : ℚ) (nBins : Nat) (hn : 0 < nBins) (x : ℚ) :
    binIndex lo w nBins x < nBins := by
  unfold binIndex
  exact Nat.lt_of_le_of_lt (Nat.min_le_left _ _) (Nat.sub_lt hn Nat.one_pos)

theorem sum_indicator_range (n k : Nat) (hk : k < n) :
    ((List.range n).map fun i => if k = i then 1 else 0).sum = 1 := by
  induction n with
  | zero => omega
  | succ m ih =>
    rw [List.range_succ, List.map_append, List.sum_append]
    rcases Nat.lt_or_ge k m with h | h
    · rw [ih h]
      have : k ≠ m := Nat.ne_of_lt h
      simp [this]
    · have hkm : k = m := by omega
      subst hkm
      have : ((List.range k).map fun i => if k = i then 1 else 0).sum = 0 := by
        apply List.sum_eq_zero
        intro x hx
        rcases List.mem_map.mp hx with ⟨i, hi, hxe⟩
        have : k ≠ i := Nat.ne_of_gt (List.mem_range.mp hi)
        simp [this] at hxe
        omega
      simp [this]

theorem sum_countP_classes {α : Type} (f : α → Nat) (n : Nat) (l : List α)
    (hf : ∀ x ∈ l, f x < n) :
    ((List.range n).map fun i => l.countP fun x => f x = i).sum = l.length := by
  induction l with
  | nil => simp
  | cons a t ih =>
    have ha : f a < n := hf a (List.mem_cons_self a t)
    have ht : ∀ x ∈ t, f x < n := fun x hx => hf x (List.mem_cons_of_mem a hx)
    have hstep : ((List.range n).map fun i => (a :: t).countP fun x => f x = i)
        = (List.range n).map fun i =>
            (t.countP fun x => f x = i) + if f a = i then 1 else 0 := by
      apply List.map_congr_left
      intro i _
      rw [List.countP_cons]
      simp
    rw [hstep, List.sum_map_add, ih ht, sum_indicator_range n (f a) ha]
    simp [Nat.add_comm]

/-- C7: in every histogram the bins tile the sampled P&L range exhaustively
(consecutive bins share an edge, the first bin starts at the sample minimum
and the last bin ends at the sample maximum), the bin counts sum exactly to
the sample count, and every bin is tagged profit or loss according to the
sign of its midpoint. -/
theorem histogram_partition (nBins : Nat) (x0 : ℚ) (rest : List ℚ) (hn : 0 < nBins) :
    ((histogram nBins x0 rest).map HistBin.count).sum = (x0 :: rest).length ∧
      (∀ i, ∀ h1 : i < (histogram nBins x0 rest).length,
        ∀ h2 : i + 1 < (histogram nBins x0 rest).length,
        ((histogram nBins x0 rest)[i]).bin_high = ((histogram nBins x0 rest)[i + 1]).bin_low) ∧
      (∀ h0 : 0 < (histogram nBins x0 rest).length,
        ((histogram nBins x0 rest)[0]).bin_low = sampleMin x0 rest) ∧
      (∀ hl : nBins - 1 < (histogram nBins x0 rest).length,
        ((histogram nBins x0 rest)[nBins - 1]).bin_high = sampleMax x0 rest) ∧
      (∀ i, ∀ h1 : i < (histogram nBins x0 rest).length,
        ((histogram nBins x0 rest)[i]).is_profit =
          decide (0 < (((histogram nBins x0 rest)[i]).bin_low
            + ((histogram nBins x0 rest)[i]).bin_high) / 2)) := by
  have hne : ((nBins : ℚ)) ≠ 0 := Nat.cast_ne_zero.mpr hn.ne'
  refine ⟨?_, ?_, ?_, ?_, ?_⟩
  · have hmap : (histogram nBins x0 rest).map HistBin.count
        = (List.range nBins).map fun i => (x0 :: rest).countP fun x =>
            binIndex (sampleMin x0 rest) (binWidth nBins x0 rest) nBins x = i := by
      unfold histogram
      rw [List.map_map]
      rfl
    rw [hmap]
    exact sum_countP_classes _ nBins (x0 :: rest)
      (fun x _ => binIndex_lt (sampleMin x0 rest) (binWidth nBins x0 rest) nBins hn x)
  · intro i h1 h2
    simp only [histogram, List.getElem_map, List.getElem_range]
    push_cast
    ring
  · intro h0
    simp only [histogram, List.getElem_map, List.getElem_range]
    push_cast
    ring
  · intro hl
    simp only [histogram, List.getElem_map, List.getElem_range]
    have hcast : ((nBins - 1 : ℕ) : ℚ) + 1 = (nBins : ℚ) := by
      rw [Nat.cast_sub (by omega : 1 ≤ nBins)]
      ring
    rw [hcast]
    unfold binWidth
    rw [mul_div_cancel₀ _ hne]
    ring
  · intro i h1
    simp only [histogram, List.getElem_map, List.getElem_range]
    have heq : sampleMin x0 rest + (i : ℚ) * binWidth nBins x0 rest
          + binWidth nBins x0 rest / 2
        = (sampleMin x0 rest + (i : ℚ) * binWidth nBins x0 rest
            + (sampleMin x0 rest + ((i : ℚ) + 1) * binWidth nBins x0 rest)) / 2 := by
      ring
    rw [heq]

theorem histogram_partition_witness :
    0 < 2 ∧ ((histogram 2 (-1) [3]).map HistBin.count).sum = ((-1 : ℚ) :: [3]).length :=
  ⟨by decide, (histogram_partition 2 (-1) [3] (by decide)).1⟩

/-! ## Black-Scholes pricing model (spec 4.1; formulas also in the README) -/

/-- Unnormalized standard normal density. -/
noncomputable def stdGauss (t : ℝ) : ℝ := Real.exp (-(1 / 2) * t ^ 2)

theorem stdGauss_pos (t : ℝ) : 0 < stdGauss t := Real.exp_pos _

theorem stdGauss_integrable : MeasureTheory.Integrable stdGauss := by
  unfold stdGauss
  exact integrable_exp_neg_mul_sq (by norm_num)

theorem stdGauss_total : (∫ t, stdGauss t) = Real.sqrt (2 * Real.pi) := by
  unfold stdGauss
  rw [integral_gaussian]
  rw [show Real.pi / (1 / 2 : ℝ) = 2 * Real.pi from by ring]

theorem stdGauss_even (t : ℝ) : stdGauss (-t) = stdGauss t := by
  unfold stdGauss
  congr 1
  ring

theorem sqrt_two_pi_pos : 0 < Real.sqrt (2 * Real.pi) :=
  Real.sqrt_pos.mpr (by positivity)

/-- Standard normal cumulative distribution function N used by the pricing
model (spec 4.1). -/
noncomputable def normCDF (x : ℝ) : ℝ :=
  (∫ t in Set.Iic x, stdGauss t) / Real.sqrt (2 * Real.pi)

theorem integral_stdGauss_Iic_neg (x : ℝ) :
    (∫ t in Set.Iic (-x), stdGauss t) = ∫ t in Set.Ioi x, stdGauss t := by
  have h := integral_comp_neg_Iic (-x) stdGauss
  rw [neg_neg] at h
  simp only [stdGauss_even] at h
  exact h

/-- The reflection identity N x + N (-x) = 1 for the standard normal CDF. -/
theorem normCDF_add_neg (x : ℝ) : normCDF x + normCDF (-x) = 1 := by
  unfold normCDF
  rw [integral_stdGauss_Iic_neg, div_add_div_same,
    intervalIntegral.integral_Iic_add_Ioi stdGauss_integrable.integrableOn
      stdGauss_integrable.integrableOn,
    stdGauss_total, div_self (ne_of_gt sqrt_two_pi_pos)]

theorem integral_stdGauss_Ioi_pos (x : ℝ) : 0 < ∫ t in Set.Ioi x, stdGauss t := by
  have h1 : (0 : ℝ) < ∫ t in x..(x + 1), stdGauss t := by
    apply intervalIntegral.intervalIntegral_pos_of_pos_on
      stdGauss_integrable.intervalIntegrable
    · intro t _
      exact stdGauss_pos t
    · linarith
  have h2 : (∫ t in x..(x + 1), stdGauss t) = ∫ t in Set.Ioc x (x + 1), stdGauss t :=
    intervalIntegral.integral_of_le (by linarith)
  have h3 : (∫ t in Set.Ioc x (x + 1), stdGauss t) ≤ ∫ t in Set.Ioi x, stdGauss t := by
    apply MeasureTheory.setIntegral_mono_set stdGauss_integrable.integrableOn
    · exact Filter.Eventually.of_forall fun t => (stdGauss_pos t).le
    · exact (Set.Ioc_subset_Ioi_self).eventuallyLE
  linarith

theorem normCDF_lt_one (x : ℝ) : normCDF x < 1 := by
  have hadd := normCDF_add_neg x
  have hpos : 0 < normCDF (-x) := by
    unfold normCDF
    rw [integral_stdGauss_Iic_neg]
    exact div_pos (integral_stdGauss_Ioi_pos x) sqrt_two_pi_pos
  linarith

/-- Modelled from the spec: d1 of the Black-Scholes formulas (spec 4.1 and
README section 2; backend/core/black_scholes.py is absent from src/). -/
noncomputable def d1 (S K r σ T : ℝ) : ℝ :=
  (Real.log (S / K) + (r + σ ^ 2 / 2) * T) / (σ * Real.sqrt T)

/-- Modelled from the spec: d2 = d1 - σ√T. -/
noncomputable def d2 (S K r σ T : ℝ) : ℝ :=
  d1 S K r σ T - σ * Real.sqrt T

/-- Modelled from the spec: call fair value S·N(d1) - K·e^(-rT)·N(d2). -/
noncomputable def bsCallPrice (S K r σ T : ℝ) : ℝ :=
  S * normCDF (d1 S K r σ T) - K * Real.exp (-(r * T)) * normCDF (d2 S K r σ T)

/-- Modelled from the spec: put fair value via the standard put transform
K·e^(-rT)·N(-d2) - S·N(-d1). -/
noncomputable def bsPutPrice (S K r σ T : ℝ) : ℝ :=
  K * Real.exp (-(r * T)) * normCDF (-(d2 S K r σ T)) - S * normCDF (-(d1 S K r σ T))

/-- C3: put-call parity — for every valid input the call price minus the put
price equals S - K·e^(-rT); in this exact-real embedding of the closed-form
model the identity is exact, hence within any floating tolerance. -/
theorem put_call_parity (S K r σ T : ℝ) (_hS : 0 < S) (_hK : 0 < K) (_hσ : 0 < σ)
    (_hT : 0 < T) :
    bsCallPrice S K r σ T - bsPutPrice S K r σ T = S - K * Real.exp (-(r * T)) := by
  have h1 := normCDF_add_neg (d1 S K r σ T)
  have h2 := normCDF_add_neg (d2 S K r σ T)
  unfold bsCallPrice bsPutPrice
  linear_combination S * h1 - K * Real.exp (-(r * T)) * h2

theorem put_call_parity_witness :
    (0 : ℝ) < 1 ∧
      bsCallPrice 1 1 0 1 1 - bsPutPrice 1 1 0 1 1 = 1 - 1 * Real.exp (-((0 : ℝ) * 1)) :=
  ⟨one_pos, put_call_parity 1 1 0 1 1 one_pos one_pos one_pos one_pos⟩

/-- Option kind of a single priced option (spec 4.1). -/
inductive OptionKind
  | call
  | put
deriving DecidableEq

/-- Validation errors of the pricing model, naming the offending input
(spec 7 taxonomy). -/
inductive ValidationError
  | nonPositiveSpot
  | nonPositiveStrike
  | nonPositiveTime
  | nonPositiveVol
  | volSqrtTimeTooSmall
deriving DecidableEq

/-- Modelled from the spec: the small epsilon that σ√T is validated against
before any division (spec 4.1 edge-case policy). -/
noncomputable def sigmaSqrtTimeEps : ℝ := 1 / 10 ^ 8

/-- Fair value dispatching on the option kind. -/
noncomputable def bsPrice (S K r σ T : ℝ) : OptionKind → ℝ
  | .call => bsCallPrice S K r σ T
  | .put => bsPutPrice S K r σ T

open Classical in
/-- Modelled from the spec: validated pricing entry point — non-positive
spot, strike, time or volatility (and a σ√T below the epsilon) are rejected
with a validation error naming the offending input before any computation
(spec 4.1 and spec 7). -/
noncomputable def bsPriceValidated (S K r σ T : ℝ) (kind : OptionKind) :
    Except ValidationError ℝ :=
  if S ≤ 0 then .error .nonPositiveSpot
  else if K ≤ 0 then .error .nonPositiveStrike
  else if T ≤ 0 then .error .nonPositiveTime
  else if σ ≤ 0 then .error .nonPositiveVol
  else if σ * Real.sqrt T ≤ sigmaSqrtTimeEps then .error .volSqrtTimeTooSmall
  else .ok (bsPrice S K r σ T kind)

/-- C6: a pricing call with non-positive T or non-positive σ fails with the
validation error naming the offending input, and never returns a value at
all (so in particular never a NaN or infinite one). -/
theorem pricing_rejects_nonpositive (S K r σ T : ℝ) (kind : OptionKind)
    (hS : 0 < S) (hK : 0 < K) (h : T ≤ 0 ∨ σ ≤ 0) :
    (T ≤ 0 → bsPriceValidated S K r σ T kind = .error ValidationError.nonPositiveTime) ∧
      (0 < T → σ ≤ 0 → bsPriceValidated S K r σ T kind
        = .error ValidationError.nonPositiveVol) ∧
      ∀ y : ℝ, bsPriceValidated S K r σ T kind ≠ .ok y := by
  unfold bsPriceValidated
  rw [if_neg (not_le.mpr hS), if_neg (not_le.mpr hK)]
  refine ⟨?_, ?_, ?_⟩
  · intro hT
    rw [if_pos hT]
  · intro hT hσ
    rw [if_neg (not_le.mpr hT), if_pos hσ]
  · intro y
    rcases h with hT | hσ
    · rw [if_pos hT]
      exact fun hc => Except.noConfusion hc
    · rcases le_or_lt T 0 with hT | hT
      · rw [if_pos hT]
        exact fun hc => Except.noConfusion hc
      · rw [if_neg (not_le.mpr hT), if_pos hσ]
        exact fun hc => Except.noConfusion hc

theorem pricing_rejects_nonpositive_witness :
    (0 : ℝ) < 1 ∧ ((0 : ℝ) ≤ 0 ∨ (1 : ℝ) ≤ 0) ∧
      bsPriceValidated 1 1 0 1 0 OptionKind.call
        = .error ValidationError.nonPositiveTime :=
  ⟨one_pos, Or.inl le_rfl,
    (pricing_rejects_nonpositive 1 1 0 1 0 OptionKind.call one_pos one_pos
      (Or.inl le_rfl)).1 le_rfl⟩

/-! ## Probability model: probability of profit (spec 4.3; README section 4) -/

/-- Modelled from the spec: the lognormal terminal-price CDF of spec 4.3 and
README section 4 (backend/core/probability.py is absent from src/):
Φ_log(x) = N((ln(x/S0) - (r - σ²/2)T) / (σ√T)). -/
noncomputable def lognormalCDF (S0 r σ T x : ℝ) : ℝ :=
  normCDF ((Real.log (x / S0) - (r - σ ^ 2 / 2) * T) / (σ * Real.sqrt T))

/-- Probability mass assigned by a CDF to one price region; an absent lower
bound is the lower end of the support and an absent upper bound is infinity. -/
noncomputable def regionMass (cdf : ℝ → ℝ) : Option ℝ × Option ℝ → ℝ
  | (lo, hi) =>
    (match hi with
      | some h => cdf h
      | none => 1)
    - (match lo with
      | some l => cdf l
      | none => 0)

/-- Region bounds strictly between consecutive breakevens, continuing after
the first breakeven of a sorted breakeven list. -/
def regionBoundsFrom (b : ℝ) : List ℝ → List (Option ℝ × Option ℝ)
  | [] => [(some b, none)]
  | c :: rest => (some b, some c) :: regionBoundsFrom c rest

/-- Modelled from the spec: the profit-region interval bounds implied by a
payoff curve's sorted breakevens (spec 4.3): the region below the first
breakeven, the regions between consecutive breakevens, and the region above
the last breakeven. -/
def regionBounds : List ℝ → List (Option ℝ × Option ℝ)
  | [] => [(none, none)]
  | b :: rest => (none, some b) :: regionBoundsFrom b rest

/-- Modelled from the spec: probability of profit — walk the regions together
with the payoff curve's profit flags and accumulate the CDF mass of every
profitable region (spec 4.3). -/
noncomputable def popOf (cdf : ℝ → ℝ) :
    List (Option ℝ × Option ℝ) → List Bool → ℝ
  | _, [] => 0
  | [], _ => 0
  | rg :: rest, f :: fs =>
    (if f then regionMass cdf rg else 0) + popOf cdf rest fs

theorem popOf_eq_filtered_sum (cdf : ℝ → ℝ) :
    ∀ (regions : List (Option ℝ × Option ℝ)) (flags : List Bool),
      popOf cdf regions flags
        = (((regions.zip flags).filter fun pr => pr.2).map
            fun pr => regionMass cdf pr.1).sum := by
  intro regions
  induction regions with
  | nil =>
    intro flags
    cases flags with
    | nil => simp [popOf]
    | cons f fs => simp [popOf]
  | cons rg rest ih =>
    intro flags
    cases flags with
    | nil => simp [popOf]
    | cons f fs =>
      cases f with
      | false => simp [popOf, List.zip_cons_cons, ih fs]
      | true => simp [popOf, List.zip_cons_cons, ih fs]

/-- C4: the probability of profit is the sum over all profit-region
intervals of the CDF mass in each interval (first conjunct, for every region
structure and profit-flag assignment); for a two-breakeven strategy whose
profit region lies between the breakevens it equals Φ_log(b2) - Φ_log(b1)
and provably differs from the single-interval formula 1 - Φ_log(b1), which
is recovered exactly in the single-breakeven profit-above case (last
conjunct). -/
theorem pop_multi_breakeven (S0 r σ T b1 b2 : ℝ) (_hσ : 0 < σ) (_hT : 0 < T) :
    (∀ (cdf : ℝ → ℝ) (regions : List (Option ℝ × Option ℝ)) (flags : List Bool),
        popOf cdf regions flags
          = (((regions.zip flags).filter fun pr => pr.2).map
              fun pr => regionMass cdf pr.1).sum) ∧
      popOf (lognormalCDF S0 r σ T) (regionBounds [b1, b2]) [false, true, false]
        = lognormalCDF S0 r σ T b2 - lognormalCDF S0 r σ T b1 ∧
      popOf (lognormalCDF S0 r σ T) (regionBounds [b1, b2]) [false, true, false]
        ≠ 1 - lognormalCDF S0 r σ T b1 ∧
      popOf (lognormalCDF S0 r σ T) (regionBounds [b1]) [false, true]
        = 1 - lognormalCDF S0 r σ T b1 := by
  have hmulti : popOf (lognormalCDF S0 r σ T) (regionBounds [b1, b2]) [false, true, false]
      = lognormalCDF S0 r σ T b2 - lognormalCDF S0 r σ T b1 := by
    simp [regionBounds, regionBoundsFrom, popOf, regionMass]
  refine ⟨fun cdf => popOf_eq_filtered_sum cdf, hmulti, ?_, ?_⟩
  · rw [hmulti]
    intro hcontra
    have hlt : lognormalCDF S0 r σ T b2 < 1 := normCDF_lt_one _
    have : lognormalCDF S0 r σ T b2 = 1 := by linarith
    exact absurd this (ne_of_lt hlt)
  · simp [regionBounds, regionBoundsFrom, popOf, regionMass]

theorem pop_multi_breakeven_witness :
    (0 : ℝ) < 1 ∧
      popOf (lognormalCDF 1 0 1 1) (regionBounds [1]) [false, true]
        = 1 - lognormalCDF 1 0 1 1 1 :=
  ⟨one_pos, (pop_multi_breakeven 1 0 1 1 1 2 one_pos one_pos).2.2.2⟩

/-! ## Monte Carlo engine determinism (spec 4.5 and 5) -/

/-- Modelled from the spec: the Box-Muller transform producing a standard
normal variate from a pair of uniform draws of a seeded deterministic stream
(spec 4.5 and README section 3). -/
noncomputable def boxMullerZ (u : Nat → ℝ) (k : Nat) : ℝ :=
  Real.sqrt (-2 * Real.log (u (2 * k))) * Real.cos (2 * Real.pi * u (2 * k + 1))

/-- Modelled from the spec: antithetic variates — every drawn Z is paired
with its negation, so path 2k+1 uses the negated variate of path 2k
(spec 4.5). -/
noncomputable def antitheticZ (u : Nat → ℝ) (i : Nat) : ℝ :=
  if i % 2 = 0 then boxMullerZ u (i / 2) else -(boxMullerZ u (i / 2))

/-- Modelled from the spec: GBM terminal price of one simulated path,
S0·exp((μ - σ²/2)T + σ√T·Z) with the antithetic Box-Muller variate Z
(spec 4.5; backend/core/monte_carlo.py is absent from src/). -/
noncomputable def terminalPrice (S0 μ σ T : ℝ) (u : Nat → ℝ) (i : Nat) : ℝ :=
  S0 * Real.exp ((μ - σ ^ 2 / 2) * T + σ * Real.sqrt T * antitheticZ u i)

/-- Modelled from the spec: P&L of one simulated path — the strategy payoff
evaluated at the path's GBM terminal price (spec 4.5). -/
noncomputable def pathPnL (payoff : ℝ → ℝ) (S0 μ σ T : ℝ) (u : Nat → ℝ) (i : Nat) : ℝ :=
  payoff (terminalPrice S0 μ σ T u i)

/-- Per-batch aggregate of one Monte Carlo run: running sums (P&L total, sum
of squares, win count, path count) together with the full multisets of P&L
samples and terminal prices.  This is exactly the combination state spec 5
prescribes — "sums, sum-of-squares, percentile sketches or full sample sort"
— and batches are combined by componentwise addition (multiset union for the
sample components), an order-independent commutative and associative
reduction. -/
structure MCAccum where
  total : ℝ
  totalSq : ℝ
  wins : Nat
  count : Nat
  samples : Multiset ℝ
  terminals : Multiset ℝ

instance : Add MCAccum :=
  ⟨fun p q => ⟨p.total + q.total, p.totalSq + q.totalSq, p.wins + q.wins,
    p.count + q.count, p.samples + q.samples, p.terminals + q.terminals⟩⟩

instance : Zero MCAccum := ⟨⟨0, 0, 0, 0, 0, 0⟩⟩

theorem MCAccum_add_def (p q : MCAccum) :
    p + q = ⟨p.total + q.total, p.totalSq + q.totalSq, p.wins + q.wins,
      p.count + q.count, p.samples + q.samples, p.terminals + q.terminals⟩ :=
  rfl

theorem MCAccum_zero_def : (0 : MCAccum) = ⟨0, 0, 0, 0, 0, 0⟩ := rfl

instance : AddCommMonoid MCAccum where
  add_assoc a b c := by
    cases a
    cases b
    cases c
    simp [MCAccum_add_def, add_assoc]
  zero_add a := by
    cases a
    simp [MCAccum_add_def, MCAccum_zero_def]
  add_zero a := by
    cases a
    simp [MCAccum_add_def, MCAccum_zero_def]
  add_comm a b := by
    cases a
    cases b
    simp [MCAccum_add_def, add_comm]
  nsmul := nsmulRec

open Classical in
/-- Contribution of one simulated path to the aggregate: its P&L enters the
running sums and the sample multiset, its terminal price enters the
terminal-price multiset. -/
noncomputable def pathAccum (pnl : Nat → ℝ) (term : Nat → ℝ) (i : Nat) : MCAccum :=
  ⟨pnl i, pnl i ^ 2, if 0 < pnl i then 1 else 0, 1, {pnl i}, {term i}⟩

/-- Aggregate of one batch of path indices, combined by the componentwise
sum. -/
noncomputable def mcAggregate (pnl : Nat → ℝ) (term : Nat → ℝ) (idxs : List Nat) :
    MCAccum :=
  (idxs.map (pathAccum pnl term)).sum

/-- Canonical ascending ordering of a sample multiset: the unique sorted list
of the sample, the "full sample sort" of spec 5.  Being a function of the
multiset alone, it does not depend on the order in which batches delivered
the samples. -/
noncomputable def sortedSample (s : Multiset ℝ) : List ℝ :=
  Multiset.sort (· ≤ ·) s

/-- Modelled from the spec: nearest-rank p-th percentile of an ascending
sample (used for VaR₉₅ as the 5th P&L percentile and the 5th/95th terminal
price percentiles, spec 4.5); 0 on an empty sample. -/
noncomputable def percentileAt (l : List ℝ) (p : Nat) : ℝ :=
  l.getD (p * l.length / 100) 0

open Classical in
/-- Modelled from the spec: downside deviation computed only from the
below-zero outcomes (spec 4.5, Sortino denominator). -/
noncomputable def downsideDeviation (l : List ℝ) : ℝ :=
  Real.sqrt ((((l.filter fun x => x < 0).map fun x => x ^ 2).sum)
    / (l.filter fun x => x < 0).length)

open Classical in
/-- Modelled from the spec: CVaR₉₅ — the mean of the outcomes at or below
the VaR threshold (spec 4.5). -/
noncomputable def cvarAt (l : List ℝ) (v : ℝ) : ℝ :=
  ((l.filter fun x => x ≤ v).sum) / ((l.filter fun x => x ≤ v).length)

/-- One bin of the MonteCarloResult histogram (real-valued mirror of the
exact-arithmetic HistBin above). -/
structure MCHistBin where
  binLow : ℝ
  binHigh : ℝ
  count : Nat
  isProfit : Bool

open Classical in
/-- Bin index of one sample in the real-valued histogram, clamped to the top
bin like binIndex above. -/
noncomputable def mcBinIndex (lo w : ℝ) (nBins : Nat) (x : ℝ) : Nat :=
  min (nBins - 1) (Int.floor ((x - lo) / w)).toNat

open Classical in
/-- Modelled from the spec: the histogram of a nonempty sample over a fixed
bin count spanning the sampled P&L range, each bin tagged profit or loss by
the sign of its midpoint (spec 3 and 4.5); real-valued mirror of the
histogram definition verified for C7. -/
noncomputable def mcHistogramNonempty (nBins : Nat) (x0 : ℝ) (rest : List ℝ) :
    List MCHistBin :=
  (List.range nBins).map fun (i : Nat) =>
    { binLow := rest.foldl min x0 + (i : ℝ)
        * ((rest.foldl max x0 - rest.foldl min x0) / (nBins : ℝ))
      binHigh := rest.foldl min x0 + ((i : ℝ) + 1)
        * ((rest.foldl max x0 - rest.foldl min x0) / (nBins : ℝ))
      count := (x0 :: rest).countP fun x =>
        mcBinIndex (rest.foldl min x0)
          ((rest.foldl max x0 - rest.foldl min x0) / (nBins : ℝ)) nBins x = i
      isProfit := decide
        (0 < rest.foldl min x0 + (i : ℝ)
            * ((rest.foldl max x0 - rest.foldl min x0) / (nBins : ℝ))
          + ((rest.foldl max x0 - rest.foldl min x0) / (nBins : ℝ)) / 2) }

/-- Histogram of a P&L sample list; empty for an empty sample. -/
noncomputable def mcHistogram (nBins : Nat) : List ℝ → List MCHistBin
  | [] => []
  | x0 :: rest => mcHistogramNonempty nBins x0 rest

/-- The full MonteCarloResult of spec 3: sample count, expected value, win
rate, standard deviation, Sharpe, Sortino, VaR₉₅ and CVaR₉₅, 5th/95th
percentile terminal prices, and the histogram. -/
structure MCResult where
  nSimulations : Nat
  ev : ℝ
  winRate : ℝ
  stdDev : ℝ
  sharpe : ℝ
  sortino : ℝ
  var95 : ℝ
  cvar95 : ℝ
  terminalP5 : ℝ
  terminalP95 : ℝ
  histogram : List MCHistBin

/-- Every MonteCarloResult statistic derived from the combined aggregate:
moments from the running sums, and the order-sensitive statistics (VaR,
CVaR, Sortino's downside deviation, percentile terminal prices and the
histogram) from the canonical sorted form of the combined sample multisets,
so each one is a function of the aggregate alone. -/
noncomputable def mcFinalize (nBins : Nat) (acc : MCAccum) : MCResult :=
  { nSimulations := acc.count
    ev := acc.total / acc.count
    winRate := (acc.wins : ℝ) / acc.count
    stdDev := Real.sqrt (acc.totalSq / acc.count - (acc.total / acc.count) ^ 2)
    sharpe := (acc.total / acc.count)
      / Real.sqrt (acc.totalSq / acc.count - (acc.total / acc.count) ^ 2)
    sortino := (acc.total / acc.count) / downsideDeviation (sortedSample acc.samples)
    var95 := percentileAt (sortedSample acc.samples) 5
    cvar95 := cvarAt (sortedSample acc.samples) (percentileAt (sortedSample acc.samples) 5)
    terminalP5 := percentileAt (sortedSample acc.terminals) 5
    terminalP95 := percentileAt (sortedSample acc.terminals) 95
    histogram := mcHistogram nBins (sortedSample acc.samples) }

/-- Modelled from the spec: a monolithic Monte Carlo run over paths
0, ..., n-1 with the P&L and terminal-price functions determined by the
strategy payoff, the market state and the seeded uniform stream u. -/
noncomputable def mcRun (payoff : ℝ → ℝ) (S0 μ σ T : ℝ) (u : Nat → ℝ)
    (nBins n : Nat) : MCResult :=
  mcFinalize nBins
    (mcAggregate (pathPnL payoff S0 μ σ T u) (terminalPrice S0 μ σ T u) (List.range n))

/-- Modelled from the spec: a batched Monte Carlo run — each batch is
aggregated independently and the partial aggregates are combined through the
order-independent reduction (spec 5). -/
noncomputable def mcRunBatched (payoff : ℝ → ℝ) (S0 μ σ T : ℝ) (u : Nat → ℝ)
    (nBins : Nat) (batches : List (List Nat)) : MCResult :=
  mcFinalize nBins
    ((batches.map (mcAggregate (pathPnL payoff S0 μ σ T u) (terminalPrice S0 μ σ T u))).sum)

/-- C8: for a fixed strategy payoff, market state and seeded uniform stream,
any batched run whose batches cover the n paths, in any order and any
partition (modelling any batch size and scheduling order), produces exactly
the full MonteCarloResult of the monolithic run — sample count, EV, win
rate, standard deviation, Sharpe, Sortino, VaR₉₅/CVaR₉₅, percentile terminal
prices and histogram included: the output is a pure function of (strategy,
market, seed, N), identical across runs. -/
theorem mc_batching_deterministic (payoff : ℝ → ℝ) (S0 μ σ T : ℝ) (u : Nat → ℝ)
    (nBins n : Nat) (batches : List (List Nat))
    (hb : List.Perm batches.flatten (List.range n)) :
    mcRunBatched payoff S0 μ σ T u nBins batches = mcRun payoff S0 μ σ T u nBins n := by
  unfold mcRunBatched mcRun
  congr 1
  show (batches.map
      (mcAggregate (pathPnL payoff S0 μ σ T u) (terminalPrice S0 μ σ T u))).sum
    = mcAggregate (pathPnL payoff S0 μ σ T u) (terminalPrice S0 μ σ T u) (List.range n)
  unfold mcAggregate
  calc (batches.map fun b =>
        (b.map (pathAccum (pathPnL payoff S0 μ σ T u) (terminalPrice S0 μ σ T u))).sum).sum
      = ((batches.map
          (List.map (pathAccum (pathPnL payoff S0 μ σ T u) (terminalPrice S0 μ σ T u)))).map
          List.sum).sum := by
        rw [List.map_map]
        rfl
    _ = ((batches.map
          (List.map (pathAccum (pathPnL payoff S0 μ σ T u)
            (terminalPrice S0 μ σ T u)))).flatten).sum :=
        (List.sum_flatten).symm
    _ = (batches.flatten.map
          (pathAccum (pathPnL payoff S0 μ σ T u) (terminalPrice S0 μ σ T u))).sum := by
        rw [List.map_flatten]
    _ = ((List.range n).map
          (pathAccum (pathPnL payoff S0 μ σ T u) (terminalPrice S0 μ σ T u))).sum :=
        (hb.map (pathAccum (pathPnL payoff S0 μ σ T u) (terminalPrice S0 μ σ T u))).sum_eq

theorem mc_batching_deterministic_witness :
    List.Perm ([[2, 0], [1]] : List (List Nat)).flatten (List.range 3) ∧
      mcRunBatched (fun s => s) 1 0 1 1 (fun _ => 1) 20 [[2, 0], [1]]
        = mcRun (fun s => s) 1 0 1 1 (fun _ => 1) 20 3 :=
  ⟨by decide,
    mc_batching_deterministic (fun s => s) 1 0 1 1 (fun _ => 1) 20 3 [[2, 0], [1]]
      (by decide)⟩

end QuantEdge
